import Mathlib

/-!
Verification of the "Aggregate By Field" grouping node.

The embedding models the node's `execute` method: JSON-like record values,
field-path resolution via lodash `get` (restricted to JSON data: property
access on objects, arrays — including numeric indices and `length` — and
strings; numbers, booleans and `null` have no properties), the JavaScript
`String(...)` conversion used to normalize group keys, the missing-value
policy, the insertion-ordered group map, group-key sorting (the JS
`localeCompare` comparator is modelled as the lexicographic linear order on
Lean strings), and output-record construction with `pairedItem` lineage.

JSON numbers are modelled as integers (`Int`); every concrete value in the
claims is integral, and `String(n)` on an integral JS number prints exactly
like `toString : Int → String`.

The option called "Disable Dot Notation" in the source is named
`disableNested` here.
-/

namespace AggregateByField

/-- A JSON-like value, as stored in an item's `json` payload. -/
inductive JValue where
  | str (s : String)
  | num (n : Int)
  | bool (b : Bool)
  | null
  | obj (fields : List (String × JValue))
  | arr (elems : List JValue)
deriving Repr

/-- A top-level item payload (`item.json`): an ordered mapping. -/
abbrev JObject := List (String × JValue)

/-- First-match lookup of a key in an object, i.e. JS property read on a
plain object (JS object keys are unique, so first match is the match). -/
def objLookup : JObject → String → Option JValue
  | [], _ => none
  | kv :: rest, k => if kv.1 = k then some kv.2 else objLookup rest k

/-- Parse a nonempty all-digit character list as a natural number. -/
def charsToNatAux (acc : Nat) : List Char → Option Nat
  | [] => some acc
  | c :: cs => if c.isDigit then charsToNatAux (acc * 10 + (c.toNat - 48)) cs else none

/-- `String.toNat?`, re-implemented over the character list so that closed
terms evaluate: `some n` when the string is a nonempty digit sequence. -/
def jsToNat? (s : String) : Option Nat :=
  match s.toList with
  | [] => none
  | cs => charsToNatAux 0 cs

/-- A canonical array index: the string must be the decimal numeral of the
index with no leading zeros, as required for JS array element access. -/
def toIndex (k : String) : Option Nat :=
  match jsToNat? k with
  | some n => if toString n = k then some n else none
  | none => none

/-- `String.prototype.split` on the separator `.`, over the character
list: every `.` ends a segment, so leading, trailing and doubled dots
produce empty segments, and the empty string yields one empty segment. -/
def splitDotChars : List Char → List String
  | [] => [""]
  | c :: rest =>
      if c = '.' then "" :: splitDotChars rest
      else
        match splitDotChars rest with
        | s :: ss => (String.singleton c ++ s) :: ss
        | [] => [String.singleton c]

/-- `field.split(".")` — the plain JS split the node uses to compute the
output key-field name (resolution itself goes through lodash path parsing
instead, see `castPath` below). -/
def jsSplitDot (s : String) : List String :=
  splitDotChars s.toList

/-- Whether the string contains a `.` (JS `includes(".")`). -/
def containsDot (s : String) : Bool :=
  s.toList.contains '.'

/-- `String.prototype.trim`: drop leading and trailing whitespace. -/
def jsTrim (s : String) : String :=
  String.mk (((s.toList.dropWhile Char.isWhitespace).reverse.dropWhile
    Char.isWhitespace).reverse)

/-- One JS property-access step `value[key]` on a JSON value, returning
`none` for JS `undefined`.  Objects are read by key; arrays by canonical
numeric index (plus `length`); strings by index (plus `length`); numbers,
booleans and `null` have no own properties. -/
def jAccess : JValue → String → Option JValue
  | .obj fields, key => objLookup fields key
  | .arr xs, key =>
      if key = "length" then some (.num (xs.length : Int))
      else
        match toIndex key with
        | some n => xs[n]?
        | none => none
  | .str s, key =>
      if key = "length" then some (.num (s.length : Int))
      else
        match toIndex key with
        | some n =>
            match s.toList[n]? with
            | some c => some (.str (String.singleton c))
            | none => none
        | none => none
  | _, _ => none

/-- lodash `get` on a pre-split path: walk the segments left to right while
the current value is neither JS `null` nor `undefined`; a walk that stops
early yields `undefined` (`none`). -/
def lodashGet : JValue → List String → Option JValue
  | v, [] => some v
  | .null, _ :: _ => none
  | v, k :: ks =>
      match jAccess v k with
      | some v2 => lodashGet v2 ks
      | none => none
termination_by structural _ l => l

/-! #### lodash path parsing: `isKey`, `stringToPath`, `castPath`

lodash `get(object, path)` is `baseGet(object, castPath(path, object))`.
`castPath` first asks `isKey(path, object)`: a string path is a single
literal key when it matches `^\w*$`, or contains neither a `.` nor a
bracket group (`reIsDeepProp`), or — the object-dependent fast path — is
itself a key `in` the object.  Only otherwise is the path parsed by
`stringToPath`, whose `rePropName` regex emits: maximal runs of characters
outside `.`/`[`/`]`; bracketed decimal numbers `[-1.5]` as one segment;
bracketed quoted names with `\\`-escape processing; a leading `.`
contributes an empty first segment, and an empty segment is emitted
wherever a `.` or `[]` is followed by another `.`, `[]` or the end of the
path.  The JS `in` check also sees inherited prototype keys, but that
disjunct is reached only for paths containing a dot or a bracket group and
no such key exists on `Object.prototype`, so own-key lookup is exact
here. -/

/-- A JS regex `\w` word character: ASCII letter, digit, or underscore. -/
def isWordChar (c : Char) : Bool :=
  c.isAlphanum || c = '_'

/-- `reIsPlainProp` (`^\w*$`): the whole string is word characters. -/
def isPlainProp (s : String) : Bool :=
  s.toList.all isWordChar

/-- After an opening `[`: does a bracket-free interior reach a `]` (the
first interior alternative of `reIsDeepProp`)? -/
def afterOpenPlain : List Char → Bool
  | [] => false
  | ']' :: _ => true
  | '[' :: _ => false
  | _ :: rest => afterOpenPlain rest

/-- Inside a bracketed quoted segment, after the opening quote `q`: scan
elements (a backslash followed by any character, or a bare character other
than `q` and backslash) up to the first bare closing quote, emitting the
unescaped content (a double backslash collapses to one, a single backslash
before another character is dropped).  Returns the content and the suffix
after the closing quote. -/
def quotedContent (q : Char) : List Char → Option (List Char × List Char)
  | [] => none
  | '\\' :: c :: rest =>
      (quotedContent q rest).map (fun cr => ((if c = '\\' then '\\' else c) :: cr.1, cr.2))
  | c :: rest =>
      if c = q then some ([], rest)
      else (quotedContent q rest).map (fun cr => (c :: cr.1, cr.2))

/-- After an opening `[`: parse a bracketed decimal number segment
(`-?` digits, optionally a dot and digits, then `]`), returning the number
text (the regex capture) and the suffix after the `]`. -/
def parseBracketNumber (cs : List Char) : Option (String × List Char) :=
  let negAndRest : List Char × List Char :=
    match cs with
    | '-' :: r => (['-'], r)
    | _ => ([], cs)
  let ds := negAndRest.2.takeWhile Char.isDigit
  let cs2 := negAndRest.2.dropWhile Char.isDigit
  if ds.isEmpty then none
  else
    match cs2 with
    | ']' :: r => some (String.mk (negAndRest.1 ++ ds), r)
    | '.' :: r =>
        let ds2 := r.takeWhile Char.isDigit
        let r2 := r.dropWhile Char.isDigit
        if ds2.isEmpty then none
        else
          match r2 with
          | ']' :: r3 => some (String.mk (negAndRest.1 ++ ds ++ '.' :: ds2), r3)
          | _ => none
    | _ => none

/-- After an opening `[`: parse a bracketed quoted segment (an opening
quote, escaped content, the matching closing quote, then `]`), returning
the unescaped content and the suffix after the `]`. -/
def parseBracketQuoted (cs : List Char) : Option (String × List Char) :=
  match cs with
  | q :: rest =>
      if q = '"' || q = '\'' then
        match quotedContent q rest with
        | some (cnt, ']' :: suf) => some (String.mk cnt, suf)
        | _ => none
      else none
  | [] => none

/-- `reIsDeepProp`: the string contains a `.` anywhere, or a bracket group
whose interior is bracket-free or quoted. -/
def deepPropScan : List Char → Bool
  | [] => false
  | '.' :: _ => true
  | '[' :: rest =>
      afterOpenPlain rest || (parseBracketQuoted rest).isSome || deepPropScan rest
  | _ :: rest => deepPropScan rest

/-- lodash `isKey(value, object)` for a string path and a non-null record:
a plain word, or no deep-property syntax, or a literal key of the record. -/
def isKey (field : String) (json : JObject) : Bool :=
  isPlainProp field || !deepPropScan field.toList || (objLookup json field).isSome

/-- A character the run alternative of `rePropName` accepts: anything
other than `.`, `[`, `]` (runs are maximal). -/
def isRunChar (c : Char) : Bool :=
  !(c = '.' || c = '[' || c = ']')

/-- The zero-width alternative of `rePropName`: a `.` or `[]` here is
followed by another `.`, `[]`, or the end of the path, so an empty segment
is emitted at this position. -/
def lookaheadEmpty (cs : List Char) : Bool :=
  match cs with
  | '.' :: r => r.isEmpty || r.head? = some '.' || r.take 2 = ['[', ']']
  | '[' :: ']' :: r => r.isEmpty || r.head? = some '.' || r.take 2 = ['[', ']']
  | _ => false

/-- The `rePropName` scan of `stringToPath`: at each position try, in the
regex's alternation order, a maximal run, a bracketed number, a bracketed
quoted name, then the zero-width empty-segment alternative (an empty match
advances one character, as the JS scan does); otherwise skip one
character.  Fuel is the remaining length: every step consumes at least one
character, so fuel equal to the length never runs out. -/
def scanPathFuel : Nat → List Char → List String
  | 0, _ => []
  | _ + 1, [] => []
  | fuel + 1, c :: rest =>
      if isRunChar c then
        String.mk ((c :: rest).takeWhile isRunChar)
          :: scanPathFuel fuel ((c :: rest).dropWhile isRunChar)
      else if c = '[' then
        match parseBracketNumber rest with
        | some (seg, rest2) => seg :: scanPathFuel fuel rest2
        | none =>
            match parseBracketQuoted rest with
            | some (seg, rest2) => seg :: scanPathFuel fuel rest2
            | none =>
                if lookaheadEmpty (c :: rest) then "" :: scanPathFuel fuel rest
                else scanPathFuel fuel rest
      else
        if lookaheadEmpty (c :: rest) then "" :: scanPathFuel fuel rest
        else scanPathFuel fuel rest

/-- lodash `stringToPath`: a leading `.` contributes an empty first
segment, then the `rePropName` scan emits the remaining segments. -/
def stringToPath (s : String) : List String :=
  let cs := s.toList
  (match cs with
    | '.' :: _ => [""]
    | _ => ([] : List String))
    ++ scanPathFuel cs.length cs

/-- lodash `castPath(path, object)` for a string path: a single literal
key when `isKey` holds, the parsed segment list otherwise. -/
def castPath (field : String) (json : JObject) : List String :=
  if isKey field json then [field] else stringToPath field

/-- Field resolution as the node performs it: with nested lookup disabled it
reads the whole path as one literal key of the top-level record
(`item.json[fieldToGroupBy]`); otherwise it calls lodash `get`, i.e.
`baseGet` over `castPath field json` — so a dotted path that is itself a
key of the record is used literally, without splitting. -/
def resolveValue (disableNested : Bool) (field : String) (json : JObject) : Option JValue :=
  if disableNested then objLookup json field
  else lodashGet (.obj json) (castPath field json)

mutual

/-- JS `String(v)` on a JSON value: strings pass through, integral numbers
print in decimal, booleans as `true`/`false`, `null` as `"null"`, plain
objects as `"[object Object]"`, arrays as the comma-join of their elements
(with `null` elements printed as the empty string, recursively). -/
def jToString : JValue → String
  | .str s => s
  | .num n => toString n
  | .bool b => cond b "true" "false"
  | .null => "null"
  | .obj _ => "[object Object]"
  | .arr xs => jJoin xs
termination_by structural v => v

/-- `Array.prototype.join(",")` over the stringified elements; a `null`
element prints as the empty string. -/
def jJoin : List JValue → String
  | [] => ""
  | [.null] => ""
  | [v] => jToString v
  | .null :: vs => "," ++ jJoin vs
  | v :: vs => jToString v ++ "," ++ jJoin vs
termination_by structural l => l

end

/-- The `handleMissingValues` option. -/
inductive HandleMissing where
  | skip
  | groupUndefined
  | groupNull
  | groupEmpty
deriving Repr, DecidableEq

/-- The `sortGroups` option. -/
inductive SortMode where
  | none
  | asc
  | desc
deriving Repr, DecidableEq

/-- The node's configuration parameters. -/
structure Config where
  fieldToGroupBy : String
  outputFieldName : String
  includeGroupKey : Bool
  disableNested : Bool
  handleMissingValues : HandleMissing
  sortGroups : SortMode
  includeItemCount : Bool
  itemCountFieldName : String
deriving Repr, DecidableEq

/-- The group-key substitute produced by the missing-value switch; `none`
means the item is skipped. -/
def missingKey : HandleMissing → Option String
  | .skip => none
  | .groupUndefined => some "undefined"
  | .groupNull => some "null"
  | .groupEmpty => some ""

/-- The normalized group key assigned to one item: resolve the field, apply
the missing-value policy when the result is `undefined` or `null`, and
convert to a string. -/
def keyForItem (dn : Bool) (field : String) (policy : HandleMissing) (json : JObject) :
    Option String :=
  match resolveValue dn field json with
  | some JValue.null => missingKey policy
  | some v => some (jToString v)
  | none => missingKey policy

/-- The insertion-ordered group map (JS `Map<string, IDataObject[]>`). -/
abbrev GMap := List (String × List JObject)

/-- Append an item to its group's list, creating the group at the end of the
map when the key is new (JS `Map` insertion order). -/
def insertGroup : GMap → String → JObject → GMap
  | [], k, it => [(k, [it])]
  | (k2, vs) :: rest, k, it =>
      if k2 = k then (k2, vs ++ [it]) :: rest
      else (k2, vs) :: insertGroup rest k it

/-- Process one item of the grouping loop. -/
def stepItem (dn : Bool) (field : String) (policy : HandleMissing) (m : GMap)
    (json : JObject) : GMap :=
  match keyForItem dn field policy json with
  | none => m
  | some k => insertGroup m k json

/-- The grouping loop over all input items. -/
def buildGrouped (dn : Bool) (field : String) (policy : HandleMissing)
    (items : List JObject) : GMap :=
  items.foldl (stepItem dn field policy) []

/-- `grouped.get(key)` (first matching entry; keys of the map are unique). -/
def glookup : GMap → String → List JObject
  | [], _ => []
  | (k2, vs) :: rest, k => if k2 = k then vs else glookup rest k

/-- Arrange the group keys by sort mode: `none` keeps first-seen order,
`asc` sorts ascending by the string comparator, `desc` sorts with the
flipped comparator (`localeCompare` modelled as the lexicographic linear
order on strings). -/
def sortKeys : SortMode → List String → List String
  | .none, ks => ks
  | .asc, ks => List.insertionSort (fun a b => a ≤ b) ks
  | .desc, ks => List.insertionSort (fun a b => b ≤ a) ks

/-- The grouping pipeline up to emission order: the emitted groups, in
order, each with its key and member list. -/
def executeCore (cfg : Config) (items : List JObject) : GMap :=
  let field := jsTrim cfg.fieldToGroupBy
  let grouped := buildGrouped cfg.disableNested field cfg.handleMissingValues items
  (sortKeys cfg.sortGroups (grouped.map Prod.fst)).map (fun k => (k, glookup grouped k))

/-- JS property assignment `o[k] = v` on a plain object: overwrite in place
when the key exists, append otherwise. -/
def setField : JObject → String → JValue → JObject
  | [], k, v => [(k, v)]
  | kv :: rest, k, v =>
      if kv.1 = k then (k, v) :: rest else kv :: setField rest k v

/-- The name of the emitted group-key field: the last dot segment when
nested lookup is on and the path is dotted, the whole path otherwise. -/
def outputKeyName (dn : Bool) (field : String) : String :=
  if !dn && containsDot field then (jsSplitDot field).getLastD "" else field

/-- One emitted item: its `json` payload and its `pairedItem` index list. -/
structure OutputItem where
  json : JObject
  pairedItem : List Nat
deriving Repr

/-- Build one output record from an emitted group, as the source does:
optionally the group-key field, then the member array, then optionally the
count; `pairedItem` is built as `Array.from({length: n}, (_, i) => ({item: i}))`,
i.e. the indices `0, …, n-1`. -/
def buildRecord (cfg : Config) (field : String) (g : String × List JObject) : OutputItem :=
  let j0 : JObject :=
    if cfg.includeGroupKey then
      setField [] (outputKeyName cfg.disableNested field) (.str g.1)
    else []
  let j1 := setField j0 cfg.outputFieldName (.arr (g.2.map JValue.obj))
  let j2 :=
    if cfg.includeItemCount then setField j1 cfg.itemCountFieldName (.num (g.2.length : Int))
    else j1
  ⟨j2, List.range g.2.length⟩

/-- The observable outcome of a successful run: the output items and
whether the "field not found in any item" execution hint was raised. -/
structure ExecResult where
  output : List OutputItem
  hint : Bool
deriving Repr

/-- The node's `execute` method: empty input returns empty output at once
(before any parameter validation); a blank grouping field (after trimming)
aborts with the configuration error; otherwise the hint is raised exactly
when resolution gave `undefined` for every item, and the grouped, ordered
output records are emitted. -/
def execute (cfg : Config) (items : List JObject) : Except String ExecResult :=
  if items.isEmpty then .ok ⟨[], false⟩
  else
    let field := jsTrim cfg.fieldToGroupBy
    if field = "" then .error "No field specified"
    else
      let hint := items.all (fun it => (resolveValue cfg.disableNested field it).isNone)
      .ok ⟨(executeCore cfg items).map (buildRecord cfg field), hint⟩

/-! ### Specification-side definitions

These definitions follow the wording of the specification (not the code);
the theorems below compare the code's behaviour against them. -/

/-- The spec's "first-seen order of distinct normalized keys", generalized
over an already-seen prefix: keep each key the first time it occurs, drop
keys already seen. -/
def firstSeenFrom (seen : List String) : List String → List String
  | [] => []
  | k :: ks => if k ∈ seen then firstSeenFrom seen ks else k :: firstSeenFrom (seen ++ [k]) ks

/-- The spec's first-seen order of the distinct keys of a list. -/
def firstSeen (l : List String) : List String :=
  firstSeenFrom [] l

/-- The amended resolution contract, written as its own segment walker:
walk the dot segments left to right; a `null` or absent current value
yields not-found; a mapping is entered by key; an array is entered by
canonical numeric index (and answers `length`); a string likewise; numbers
and booleans have no descendants. -/
def specWalkVal : List String → JValue → Option JValue
  | [], v => some v
  | k :: ks, .obj fields =>
      match objLookup fields k with
      | some v => specWalkVal ks v
      | none => none
  | k :: ks, .arr xs =>
      if k = "length" then specWalkVal ks (.num (xs.length : Int))
      else
        match toIndex k with
        | some n =>
            match xs[n]? with
            | some v => specWalkVal ks v
            | none => none
        | none => none
  | k :: ks, .str s =>
      if k = "length" then specWalkVal ks (.num (s.length : Int))
      else
        match toIndex k with
        | some n =>
            match s.toList[n]? with
            | some c => specWalkVal ks (.str (String.singleton c))
            | none => none
        | none => none
  | _ :: _, _ => none
termination_by structural l _ => l

/-- The amended resolution contract: with nested lookup disabled the whole
path is one literal top-level key; otherwise the path is cast against the
record — a plain word, a path without dot/bracket syntax, or a literal key
of the record stays one segment, anything else is parsed into dot and
bracket segments — and the walker descends segment by segment. -/
def specResolve (dn : Bool) (field : String) (json : JObject) : Option JValue :=
  if dn then objLookup json field
  else specWalkVal (castPath field json) (.obj json)

/-! ### Concrete fixtures used by the closed theorems -/

/-- A configuration with all options at their defaults and field `c`. -/
def cfgC : Config := ⟨"c", "items", true, false, .skip, .none, false, "itemCount"⟩

/-- Three records: group `A` contributes input positions 0 and 2, group `B`
position 1. -/
def itemsABA : List JObject :=
  [[("c", .str "A"), ("n", .num 1)], [("c", .str "B")], [("c", .str "A"), ("n", .num 3)]]

/-- A record whose grouping field holds an array. -/
def recArr : JObject := [("a", .arr [.num 10, .num 20])]

/-- A nested-path configuration (`fieldToGroupBy = "user.country"`). -/
def cfgUser : Config := ⟨"user.country", "items", true, false, .skip, .none, false, "itemCount"⟩

/-- One record with a nested `user.country` value. -/
def itemsUser : List JObject := [[("user", .obj [("country", .str "DE")])]]

/-- The single output record `execute cfgUser itemsUser` produces. -/
def outUser : OutputItem :=
  ⟨[("country", .str "DE"),
    ("items", .arr [.obj [("user", .obj [("country", .str "DE")])]])], [0]⟩

/-! ### Helper lemmas about the group map -/

theorem glookup_insertGroup (m : GMap) (k k2 : String) (it : JObject) :
    glookup (insertGroup m k it) k2 =
      if k = k2 then glookup m k2 ++ [it] else glookup m k2 := by
  induction m with
  | nil => by_cases h : k = k2 <;> simp [insertGroup, glookup, h]
  | cons e rest ih =>
      obtain ⟨k3, vs⟩ := e
      by_cases h3 : k3 = k
      · subst h3
        by_cases h : k3 = k2 <;> simp [insertGroup, glookup, h]
      · by_cases h2 : k3 = k2
        · subst h2
          have hk : ¬k = k3 := fun hh => h3 hh.symm
          simp [insertGroup, glookup, h3, hk]
        · simp [insertGroup, glookup, h3, h2, ih]

theorem keys_insertGroup (m : GMap) (k : String) (it : JObject) :
    (insertGroup m k it).map Prod.fst =
      if k ∈ m.map Prod.fst then m.map Prod.fst else m.map Prod.fst ++ [k] := by
  induction m with
  | nil => simp [insertGroup]
  | cons e rest ih =>
      obtain ⟨k3, vs⟩ := e
      by_cases h3 : k3 = k
      · subst h3
        simp [insertGroup]
      · have hne : ¬k = k3 := fun hh => h3 hh.symm
        by_cases hm : k ∈ rest.map Prod.fst <;>
          simp [insertGroup, h3, ih, hne, hm]

theorem glookup_foldl (dn : Bool) (field : String) (policy : HandleMissing)
    (items : List JObject) (m : GMap) (k : String) :
    glookup (items.foldl (stepItem dn field policy) m) k =
      glookup m k ++ items.filter (fun it => keyForItem dn field policy it = some k) := by
  induction items generalizing m with
  | nil => simp
  | cons it rest ih =>
      simp only [List.foldl_cons, List.filter_cons]
      rw [ih]
      cases hk : keyForItem dn field policy it with
      | none => simp [stepItem, hk]
      | some k2 =>
          by_cases h : k2 = k
          · subst h
            simp [stepItem, hk, glookup_insertGroup]
          · have hne : ¬keyForItem dn field policy it = some k := by simp [hk, h]
            simp [stepItem, hk, glookup_insertGroup, h, hne]

theorem keys_foldl (dn : Bool) (field : String) (policy : HandleMissing)
    (items : List JObject) (m : GMap) :
    (items.foldl (stepItem dn field policy) m).map Prod.fst =
      m.map Prod.fst ++
        firstSeenFrom (m.map Prod.fst) (items.filterMap (keyForItem dn field policy)) := by
  induction items generalizing m with
  | nil => simp [firstSeenFrom]
  | cons it rest ih =>
      simp only [List.foldl_cons, List.filterMap_cons]
      cases hk : keyForItem dn field policy it with
      | none => simp [stepItem, hk, ih]
      | some k =>
          by_cases hm : k ∈ m.map Prod.fst
          · have hkeys : (insertGroup m k it).map Prod.fst = m.map Prod.fst := by
              rw [keys_insertGroup]; simp [hm]
            simp [stepItem, hk, firstSeenFrom, hm, ih, hkeys]
          · have hkeys : (insertGroup m k it).map Prod.fst = m.map Prod.fst ++ [k] := by
              rw [keys_insertGroup]; simp [hm]
            simp [stepItem, hk, firstSeenFrom, hm, ih, hkeys]

theorem mem_firstSeenFrom {x : String} :
    ∀ (l seen : List String), x ∈ firstSeenFrom seen l ↔ x ∈ l ∧ x ∉ seen := by
  intro l
  induction l with
  | nil => intro seen; simp [firstSeenFrom]
  | cons k ks ih =>
      intro seen
      by_cases hk : k ∈ seen
      · by_cases hx : x = k
        · subst hx
          simp [firstSeenFrom, hk, ih]
        · simp [firstSeenFrom, hk, ih, hx]
      · by_cases hx : x = k
        · subst hx
          simp [firstSeenFrom, hk]
        · simp [firstSeenFrom, hk, ih, hx]

theorem nodup_firstSeenFrom : ∀ (l seen : List String), (firstSeenFrom seen l).Nodup := by
  intro l
  induction l with
  | nil => intro seen; simp [firstSeenFrom]
  | cons k ks ih =>
      intro seen
      by_cases hk : k ∈ seen
      · simp [firstSeenFrom, hk, ih]
      · have heq : firstSeenFrom seen (k :: ks) = k :: firstSeenFrom (seen ++ [k]) ks := by
          simp [firstSeenFrom, hk]
        rw [heq, List.nodup_cons]
        refine ⟨fun hmem => ?_, ih _⟩
        rw [mem_firstSeenFrom] at hmem
        exact hmem.2 (by simp)

/-! ### Flattening the member lists -/

theorem flatten_perm_of_perm {α : Type} {l1 l2 : List (List α)} (h : List.Perm l1 l2) :
    List.Perm l1.flatten l2.flatten := by
  induction h with
  | nil => exact List.Perm.refl _
  | cons x _ ih => simpa using ih.append_left x
  | swap x y l =>
      simp only [List.flatten_cons, ← List.append_assoc]
      exact List.Perm.append_right _ List.perm_append_comm
  | trans _ _ ih1 ih2 => exact ih1.trans ih2

theorem flatten_snd_insertGroup (m : GMap) (k : String) (it : JObject) :
    List.Perm ((insertGroup m k it).map Prod.snd).flatten
      ((m.map Prod.snd).flatten ++ [it]) := by
  induction m with
  | nil => simp [insertGroup]
  | cons e rest ih =>
      obtain ⟨k3, vs⟩ := e
      by_cases h3 : k3 = k
      · simp only [insertGroup, h3, if_pos, List.map_cons, List.flatten_cons,
          List.append_assoc]
        exact List.Perm.append_left vs (List.perm_append_comm)
      · simp only [insertGroup, h3, if_neg, List.map_cons, List.flatten_cons,
          List.append_assoc]
        exact List.Perm.append_left vs ih

theorem flatten_snd_foldl (dn : Bool) (field : String) (policy : HandleMissing)
    (items : List JObject) (m : GMap) :
    List.Perm ((items.foldl (stepItem dn field policy) m).map Prod.snd).flatten
      ((m.map Prod.snd).flatten ++
        items.filter (fun it => (keyForItem dn field policy it).isSome)) := by
  induction items generalizing m with
  | nil => simp
  | cons it rest ih =>
      simp only [List.foldl_cons, List.filter_cons]
      cases hk : keyForItem dn field policy it with
      | none => simpa [stepItem, hk] using ih m
      | some k =>
          have h1 := ih (insertGroup m k it)
          have h2 : List.Perm
              (((insertGroup m k it).map Prod.snd).flatten ++
                rest.filter (fun it => (keyForItem dn field policy it).isSome))
              ((m.map Prod.snd).flatten ++
                (it :: rest.filter (fun it => (keyForItem dn field policy it).isSome))) := by
            have h3 := List.Perm.append_right
              (rest.filter (fun it => (keyForItem dn field policy it).isSome))
              (flatten_snd_insertGroup m k it)
            simpa [List.append_assoc] using h3
          simpa [stepItem, hk] using h1.trans h2

theorem map_snd_eq_of_nodup : ∀ (m : GMap), (m.map Prod.fst).Nodup →
    m.map Prod.snd = (m.map Prod.fst).map (glookup m) := by
  intro m
  induction m with
  | nil => simp
  | cons e rest ih =>
      obtain ⟨k, vs⟩ := e
      intro h
      simp only [List.map_cons, List.nodup_cons] at h ⊢
      obtain ⟨hk, hrest⟩ := h
      congr 1
      · simp [glookup]
      · rw [ih hrest]
        apply List.map_congr_left
        intro k2 hk2
        have hne : ¬k = k2 := fun hh => hk (hh ▸ hk2)
        simp [glookup, hne]

/-! ### Sorting the group keys -/

instance : IsTotal String (fun a b : String => b ≤ a) := ⟨fun a b => le_total b a⟩

instance : IsTrans String (fun a b : String => b ≤ a) :=
  ⟨fun _ _ _ h1 h2 => le_trans h2 h1⟩

theorem sortKeys_perm (mode : SortMode) (ks : List String) :
    List.Perm (sortKeys mode ks) ks := by
  cases mode with
  | none => exact List.Perm.refl _
  | asc => exact List.perm_insertionSort _ _
  | desc => exact List.perm_insertionSort _ _

theorem sortKeys_asc_sorted (ks : List String) :
    List.Sorted (fun a b : String => a ≤ b) (sortKeys .asc ks) :=
  List.sorted_insertionSort _ ks

theorem sortKeys_desc_eq (ks : List String) :
    sortKeys .desc ks = (sortKeys .asc ks).reverse := by
  have hD : List.Sorted (fun a b : String => b ≤ a) (sortKeys .desc ks) :=
    List.sorted_insertionSort _ ks
  have hA : List.Sorted (fun a b : String => a ≤ b) (sortKeys .asc ks) :=
    List.sorted_insertionSort _ ks
  have hRev : List.Sorted (fun a b : String => a ≤ b) ((sortKeys .desc ks).reverse) :=
    List.pairwise_reverse.mpr hD
  have hperm : List.Perm ((sortKeys .desc ks).reverse) (sortKeys .asc ks) :=
    ((List.reverse_perm _).trans (sortKeys_perm _ _)).trans (sortKeys_perm .asc ks).symm
  have heq := List.eq_of_perm_of_sorted hperm hRev hA
  calc sortKeys .desc ks = ((sortKeys .desc ks).reverse).reverse :=
        (List.reverse_reverse _).symm
    _ = (sortKeys .asc ks).reverse := by rw [heq]

/-! ### Structure of the emitted groups -/

theorem executeCore_keys (cfg : Config) (items : List JObject) :
    (executeCore cfg items).map Prod.fst =
      sortKeys cfg.sortGroups
        ((buildGrouped cfg.disableNested (jsTrim cfg.fieldToGroupBy)
            cfg.handleMissingValues items).map Prod.fst) := by
  simp only [executeCore]
  rw [List.map_map]
  rw [show (Prod.fst ∘ fun k =>
      (k, glookup (buildGrouped cfg.disableNested (jsTrim cfg.fieldToGroupBy)
        cfg.handleMissingValues items) k)) = id from rfl]
  rw [List.map_id]

theorem executeCore_snd {cfg : Config} {items : List JObject} {p : String × List JObject}
    (hp : p ∈ executeCore cfg items) :
    p.2 = items.filter
      (fun it => keyForItem cfg.disableNested (jsTrim cfg.fieldToGroupBy)
        cfg.handleMissingValues it = some p.1) := by
  simp only [executeCore, List.mem_map] at hp
  obtain ⟨k, _, rfl⟩ := hp
  simpa [buildGrouped, glookup] using
    glookup_foldl cfg.disableNested (jsTrim cfg.fieldToGroupBy)
      cfg.handleMissingValues items [] k

theorem executeCore_mem_of_key {cfg : Config} {items : List JObject} {k : String}
    (h : ∃ it ∈ items, keyForItem cfg.disableNested (jsTrim cfg.fieldToGroupBy)
      cfg.handleMissingValues it = some k) :
    ∃ ms, (k, ms) ∈ executeCore cfg items := by
  have hkeys := keys_foldl cfg.disableNested (jsTrim cfg.fieldToGroupBy)
    cfg.handleMissingValues items []
  have hmem : k ∈ (buildGrouped cfg.disableNested (jsTrim cfg.fieldToGroupBy)
      cfg.handleMissingValues items).map Prod.fst := by
    rw [buildGrouped, hkeys]
    simp only [List.map_nil, List.nil_append]
    rw [mem_firstSeenFrom]
    refine ⟨?_, by simp⟩
    rw [List.mem_filterMap]
    obtain ⟨it, hit, hkey⟩ := h
    exact ⟨it, hit, hkey⟩
  have hmem2 : k ∈ sortKeys cfg.sortGroups
      ((buildGrouped cfg.disableNested (jsTrim cfg.fieldToGroupBy)
        cfg.handleMissingValues items).map Prod.fst) :=
    (sortKeys_perm _ _).mem_iff.mpr hmem
  refine ⟨glookup (buildGrouped cfg.disableNested (jsTrim cfg.fieldToGroupBy)
    cfg.handleMissingValues items) k, ?_⟩
  simp only [executeCore, List.mem_map]
  exact ⟨k, hmem2, rfl⟩

theorem mem_own_group {cfg : Config} {items : List JObject} {it : JObject} {k : String}
    (hmem : it ∈ items)
    (hkey : keyForItem cfg.disableNested (jsTrim cfg.fieldToGroupBy)
      cfg.handleMissingValues it = some k) :
    ∃ ms, (k, ms) ∈ executeCore cfg items ∧ it ∈ ms := by
  obtain ⟨ms, hms⟩ := executeCore_mem_of_key ⟨it, hmem, hkey⟩
  refine ⟨ms, hms, ?_⟩
  have h2 := executeCore_snd hms
  simp only at h2
  rw [h2]
  exact List.mem_filter.mpr ⟨hmem, by simp [hkey]⟩

/-! ### Resolution and record-construction lemmas -/

theorem keyForItem_resolved (dn : Bool) (field : String) (policy : HandleMissing)
    (json : JObject) (v : JValue)
    (h : resolveValue dn field json = some v) (hv : v ≠ JValue.null) :
    keyForItem dn field policy json = some (jToString v) := by
  cases v with
  | null => exact absurd rfl hv
  | str s => simp [keyForItem, h]
  | num n => simp [keyForItem, h]
  | bool b => simp [keyForItem, h]
  | obj fields => simp [keyForItem, h]
  | arr xs => simp [keyForItem, h]

theorem objLookup_setField_self (o : JObject) (k : String) (v : JValue) :
    objLookup (setField o k v) k = some v := by
  induction o with
  | nil => simp [setField, objLookup]
  | cons kv rest ih =>
      by_cases h : kv.1 = k
      · simp [setField, objLookup, h]
      · simp [setField, objLookup, h, ih]

theorem objLookup_setField_ne (o : JObject) (k1 k2 : String) (v : JValue)
    (h : k1 ≠ k2) :
    objLookup (setField o k1 v) k2 = objLookup o k2 := by
  induction o with
  | nil => simp [setField, objLookup, h]
  | cons kv rest ih =>
      by_cases h1 : kv.1 = k1
      · by_cases h2 : kv.1 = k2
        · exact absurd (h2 ▸ h1.symm ▸ rfl) (h1 ▸ h)
        · simp [setField, objLookup, h1, h2, h]
      · simp [setField, objLookup, h1, ih]

theorem lodashGet_eq_specWalkVal : ∀ (segs : List String) (v : JValue),
    lodashGet v segs = specWalkVal segs v := by
  intro segs
  induction segs with
  | nil => intro v; cases v <;> rfl
  | cons k ks ih =>
      intro v
      cases v with
      | null => rfl
      | num n => rfl
      | bool b => rfl
      | obj fields =>
          simp only [lodashGet, jAccess, specWalkVal]
          cases ho : objLookup fields k with
          | none => simp [ho]
          | some v2 => simp [ho, ih]
      | arr xs =>
          simp only [lodashGet, jAccess, specWalkVal]
          by_cases hk : k = "length"
          · simp [hk, ih]
          · simp only [hk, if_false]
            cases hi : toIndex k with
            | none => simp [hi]
            | some n =>
                cases he : xs[n]? with
                | none => simp [hi, he]
                | some v2 => simp [hi, he, ih]
      | str s =>
          simp only [lodashGet, jAccess, specWalkVal]
          by_cases hk : k = "length"
          · simp [hk, ih]
          · simp only [hk, if_false]
            cases hi : toIndex k with
            | none => simp [hi]
            | some n =>
                cases he : s.data[n]? with
                | none => simp [String.toList, hi, he]
                | some c => simp [String.toList, hi, he, ih]

/-! ### Claim theorems -/

/-- C1: the spec says each output record's `pairedItem` lists the original
input positions of the group's members.  The code instead emits the local
indices `0 … count-1`: on three records grouped as `A, B, A` by field `c`,
the `A` group's members come from input positions 0 and 2, yet its
`pairedItem` is `[0, 1]` — index 1 is the `B` record's position. -/
theorem C1_pairedItem_not_lineage :
    (execute cfgC itemsABA).toOption.map (fun r => r.output.map (fun o => o.pairedItem))
      = some [[0, 1], [0]]
    ∧ ((List.range itemsABA.length).filter
        (fun i => keyForItem false "c" .skip (itemsABA.getD i []) = some "A")) = [0, 2]
    ∧ ([0, 1] : List Nat) ≠ [0, 2] :=
  ⟨rfl, rfl, by decide⟩

/-- C2 counterexample: a single record whose grouping field resolves to
explicit `null` — per the claim this counts as "not found", so the
"field not found in any record" diagnostic should be raised; the code
tracks `groupKey !== undefined`, counts `null` as found, and raises no
hint (`hint = false`). -/
theorem C2_null_value_suppresses_hint :
    execute ⟨"a", "items", true, false, .skip, .none, false, "itemCount"⟩
        [[("a", JValue.null)]] = .ok ⟨[], false⟩
    ∧ resolveValue false (jsTrim "a") [("a", JValue.null)] = some JValue.null :=
  ⟨rfl, rfl⟩

/-- C2 amended: for non-empty input, the non-fatal diagnostic hint is
raised iff field-path resolution yields `undefined` (key absent) for every
input record; a record whose resolved value is explicit `null` counts as
found and suppresses the diagnostic. -/
theorem C2_hint_iff_all_undefined (cfg : Config) (items : List JObject) (res : ExecResult)
    (hok : execute cfg items = .ok res) (hne : items ≠ []) :
    res.hint = true ↔
      ∀ it ∈ items, resolveValue cfg.disableNested (jsTrim cfg.fieldToGroupBy) it = none := by
  cases items with
  | nil => exact absurd rfl hne
  | cons a l =>
      by_cases hf : jsTrim cfg.fieldToGroupBy = ""
      · simp [execute, hf] at hok
      · simp only [execute, List.isEmpty_cons, Bool.false_eq_true, if_false, hf,
          if_neg, Except.ok.injEq] at hok
        rw [← hok]
        simp [List.all_eq_true, Option.isNone_iff_eq_none]

/-- C2 witness: a run whose hint is raised, instantiating the amended
theorem at a concrete one-record input. -/
theorem C2_hint_iff_all_undefined_witness :
    resolveValue false (jsTrim "a") [("b", JValue.num 1)] = none :=
  (C2_hint_iff_all_undefined ⟨"a", "items", true, false, .skip, .none, false, "itemCount"⟩
      [[("b", JValue.num 1)]] ⟨[], true⟩ rfl (by simp)).mp rfl
    [("b", JValue.num 1)] (List.mem_singleton_self _)

/-- C3 counterexample: with an empty input sequence and a grouping field
that is blank after trimming, the code returns the empty output *before*
validating the configuration — no configuration error is raised, contrary
to the claim's "(including the empty one)". -/
theorem C3_empty_input_short_circuits :
    execute ⟨" ", "items", true, false, .skip, .none, false, "itemCount"⟩ [] = .ok ⟨[], false⟩
    ∧ jsTrim " " = "" :=
  ⟨rfl, rfl⟩

/-- C3 amended: for every *non-empty* input sequence and every
configuration whose grouping field is blank after trimming, the operation
fails with the configuration error before producing any output. -/
theorem C3_blank_field_errors (cfg : Config) (items : List JObject)
    (hne : items ≠ []) (hblank : jsTrim cfg.fieldToGroupBy = "") :
    execute cfg items = .error "No field specified" := by
  cases items with
  | nil => exact absurd rfl hne
  | cons a l => simp [execute, hblank]

/-- C3 witness: the amended theorem applied at a concrete blank-field
configuration and a one-record input. -/
theorem C3_blank_field_errors_witness :
    execute ⟨"  ", "items", true, false, .skip, .none, false, "itemCount"⟩
      [[("a", JValue.num 1)]] = .error "No field specified" :=
  C3_blank_field_errors _ _ (by simp) rfl

/-- C4 counterexample: on `{a: [10, 20]}` with path `a.0`, the value at
the first step is an array — per the claim (arrays are not mappings)
resolution should stop with not-found — yet resolution descends into the
array and returns `10`. -/
theorem C4_resolution_descends_into_arrays :
    resolveValue false "a.0" recArr = some (.num 10)
    ∧ resolveValue false "a" recArr = some (.arr [.num 10, .num 20]) :=
  ⟨rfl, rfl⟩

/-- C4 amended: when nested lookup is enabled, resolution casts the path
against the record first — a path that is a literal key of the record is
used whole, without splitting (lodash's `isKey` fast path), and otherwise
the path is parsed into dot *and bracket* segments (`a[0].b` yields
`a`, `0`, `b`) — then walks the segments left to right, returning
not-found as soon as the current value is `null`/absent or has no such
property; the walk *does* descend into arrays (by canonical numeric index,
with `length` answered) and into strings, as well as mappings; with the
"disable nested lookup" option set, the whole path string is a single
literal key of the top-level record.  Stated as: resolution equals the
spec-side walker over the cast path; a record owning the literal path as a
key resolves to that key's value; and bracket paths parse by segments. -/
theorem C4_resolveValue_eq_specResolve :
    (∀ (dn : Bool) (field : String) (json : JObject),
      resolveValue dn field json = specResolve dn field json)
    ∧ (∀ (field : String) (json : JObject), (objLookup json field).isSome = true →
        resolveValue false field json = objLookup json field)
    ∧ stringToPath "a[0].b" = ["a", "0", "b"] := by
  refine ⟨?_, ?_, rfl⟩
  · intro dn field json
    cases dn with
    | true => rfl
    | false => simp [resolveValue, specResolve, lodashGet_eq_specWalkVal]
  · intro field json h
    have hkey : isKey field json = true := by
      simp [isKey, h]
    simp only [resolveValue, castPath, hkey, if_true, if_false, Bool.false_eq_true]
    cases ho : objLookup json field with
    | none => rw [ho] at h; exact absurd h (by simp)
    | some v => simp [lodashGet, jAccess, ho]

/-- C4 witness: a record owning the literal dotted key `a.b` resolves the
path `a.b` to that key's value without splitting. -/
theorem C4_resolveValue_eq_specResolve_witness :
    resolveValue false "a.b" [("a.b", JValue.num 1)] = objLookup [("a.b", JValue.num 1)] "a.b" :=
  C4_resolveValue_eq_specResolve.2.1 "a.b" [("a.b", JValue.num 1)] rfl

/-- Running the engine on no input yields no groups. -/
theorem executeCore_nil (cfg : Config) : executeCore cfg [] = [] := by
  cases h : cfg.sortGroups <;>
    simp [executeCore, buildGrouped, sortKeys, h, List.insertionSort]

/-- The emitted group keys are pairwise distinct. -/
theorem executeCore_keys_nodup (cfg : Config) (items : List JObject) :
    ((executeCore cfg items).map Prod.fst).Nodup := by
  rw [executeCore_keys]
  refine ((sortKeys_perm _ _).nodup_iff).mpr ?_
  rw [buildGrouped, keys_foldl]
  simpa using nodup_firstSeenFrom _ _

/-- Concatenating the member lists in emission order is a permutation of
the input records that received a group key. -/
theorem executeCore_flatten_perm (cfg : Config) (items : List JObject) :
    List.Perm (((executeCore cfg items).map Prod.snd).flatten)
      (items.filter (fun it => (keyForItem cfg.disableNested
        (jsTrim cfg.fieldToGroupBy) cfg.handleMissingValues it).isSome)) := by
  have hnodup : ((buildGrouped cfg.disableNested (jsTrim cfg.fieldToGroupBy)
      cfg.handleMissingValues items).map Prod.fst).Nodup := by
    rw [buildGrouped, keys_foldl]
    simpa using nodup_firstSeenFrom _ _
  have hsnd : (executeCore cfg items).map Prod.snd
      = (sortKeys cfg.sortGroups ((buildGrouped cfg.disableNested
          (jsTrim cfg.fieldToGroupBy) cfg.handleMissingValues items).map Prod.fst)).map
        (glookup (buildGrouped cfg.disableNested (jsTrim cfg.fieldToGroupBy)
          cfg.handleMissingValues items)) := by
    simp only [executeCore]
    rw [List.map_map]
    rfl
  rw [hsnd]
  have hperm1 := (sortKeys_perm cfg.sortGroups
    ((buildGrouped cfg.disableNested (jsTrim cfg.fieldToGroupBy)
      cfg.handleMissingValues items).map Prod.fst)).map
    (glookup (buildGrouped cfg.disableNested (jsTrim cfg.fieldToGroupBy)
      cfg.handleMissingValues items))
  have hflat1 := flatten_perm_of_perm hperm1
  rw [← map_snd_eq_of_nodup _ hnodup] at hflat1
  have hflat2 : List.Perm (((buildGrouped cfg.disableNested (jsTrim cfg.fieldToGroupBy)
      cfg.handleMissingValues items).map Prod.snd).flatten)
      (items.filter (fun it => (keyForItem cfg.disableNested
        (jsTrim cfg.fieldToGroupBy) cfg.handleMissingValues it).isSome)) := by
    simpa [buildGrouped] using
      flatten_snd_foldl cfg.disableNested (jsTrim cfg.fieldToGroupBy)
        cfg.handleMissingValues items []
  exact hflat1.trans hflat2

/-- C5: the emission order of groups by sort mode — `none` is first-seen
insertion order of the distinct normalized keys; `asc` is ascending under
the string comparator (the JS `localeCompare` is modelled as the
lexicographic linear order on strings) and contains the same keys; `desc`
is exactly the reverse of `asc` on the same input. -/
theorem C5_emission_order (f o : String) (g d : Bool) (p : HandleMissing) (c : Bool)
    (n : String) (items : List JObject) :
    ((executeCore ⟨f, o, g, d, p, .none, c, n⟩ items).map Prod.fst
        = firstSeen (items.filterMap (keyForItem d (jsTrim f) p)))
    ∧ List.Sorted (fun a b : String => a ≤ b)
        ((executeCore ⟨f, o, g, d, p, .asc, c, n⟩ items).map Prod.fst)
    ∧ List.Perm ((executeCore ⟨f, o, g, d, p, .asc, c, n⟩ items).map Prod.fst)
        ((executeCore ⟨f, o, g, d, p, .none, c, n⟩ items).map Prod.fst)
    ∧ (executeCore ⟨f, o, g, d, p, .desc, c, n⟩ items).map Prod.fst
        = ((executeCore ⟨f, o, g, d, p, .asc, c, n⟩ items).map Prod.fst).reverse := by
  refine ⟨?_, ?_, ?_, ?_⟩
  · rw [executeCore_keys ⟨f, o, g, d, p, .none, c, n⟩ items]
    show (buildGrouped d (jsTrim f) p items).map Prod.fst = _
    rw [buildGrouped, keys_foldl]
    simp [firstSeen]
  · rw [executeCore_keys ⟨f, o, g, d, p, .asc, c, n⟩ items]
    exact sortKeys_asc_sorted _
  · rw [executeCore_keys ⟨f, o, g, d, p, .asc, c, n⟩ items,
      executeCore_keys ⟨f, o, g, d, p, .none, c, n⟩ items]
    exact sortKeys_perm .asc _
  · rw [executeCore_keys ⟨f, o, g, d, p, .desc, c, n⟩ items,
      executeCore_keys ⟨f, o, g, d, p, .asc, c, n⟩ items]
    exact sortKeys_desc_eq _

/-- C6: for a record whose resolution yields not-found (absent or explicit
null), the configured policy decides its placement: `skip` keeps it out of
every group, `groupUndefined`/`groupNull`/`groupEmpty` place it in the
group keyed `"undefined"`/`"null"`/`""` respectively. -/
theorem C6_missing_value_policy (cfg : Config) (items : List JObject) (it : JObject)
    (hmem : it ∈ items)
    (hres : resolveValue cfg.disableNested (jsTrim cfg.fieldToGroupBy) it = none
      ∨ resolveValue cfg.disableNested (jsTrim cfg.fieldToGroupBy) it = some JValue.null) :
    (cfg.handleMissingValues = .skip → ∀ q ∈ executeCore cfg items, it ∉ q.2)
    ∧ (cfg.handleMissingValues = .groupUndefined →
        ∃ q ∈ executeCore cfg items, q.1 = "undefined" ∧ it ∈ q.2)
    ∧ (cfg.handleMissingValues = .groupNull →
        ∃ q ∈ executeCore cfg items, q.1 = "null" ∧ it ∈ q.2)
    ∧ (cfg.handleMissingValues = .groupEmpty →
        ∃ q ∈ executeCore cfg items, q.1 = "" ∧ it ∈ q.2) := by
  have hkey : keyForItem cfg.disableNested (jsTrim cfg.fieldToGroupBy)
      cfg.handleMissingValues it = missingKey cfg.handleMissingValues := by
    rcases hres with h | h <;> simp [keyForItem, h]
  refine ⟨?_, ?_, ?_, ?_⟩
  · intro hpol q hq hit
    have hsnd := executeCore_snd hq
    rw [hsnd] at hit
    have h2 := of_decide_eq_true (List.mem_filter.mp hit).2
    rw [hkey, hpol] at h2
    simp [missingKey] at h2
  · intro hpol
    have hk2 : keyForItem cfg.disableNested (jsTrim cfg.fieldToGroupBy)
        cfg.handleMissingValues it = some "undefined" := by rw [hkey, hpol]; rfl
    obtain ⟨ms, hms, hin⟩ := mem_own_group hmem hk2
    exact ⟨("undefined", ms), hms, rfl, hin⟩
  · intro hpol
    have hk2 : keyForItem cfg.disableNested (jsTrim cfg.fieldToGroupBy)
        cfg.handleMissingValues it = some "null" := by rw [hkey, hpol]; rfl
    obtain ⟨ms, hms, hin⟩ := mem_own_group hmem hk2
    exact ⟨("null", ms), hms, rfl, hin⟩
  · intro hpol
    have hk2 : keyForItem cfg.disableNested (jsTrim cfg.fieldToGroupBy)
        cfg.handleMissingValues it = some "" := by rw [hkey, hpol]; rfl
    obtain ⟨ms, hms, hin⟩ := mem_own_group hmem hk2
    exact ⟨("", ms), hms, rfl, hin⟩

/-- C6 witness: with policy `groupNull`, a record lacking the field lands
in the group keyed `"null"`. -/
theorem C6_missing_value_policy_witness :
    ∃ q ∈ executeCore ⟨"a", "items", true, false, .groupNull, .none, false, "itemCount"⟩
        ([[("b", JValue.num 7)]] : List JObject),
      q.1 = "null" ∧ ([("b", JValue.num 7)] : JObject) ∈ q.2 :=
  (C6_missing_value_policy ⟨"a", "items", true, false, .groupNull, .none, false, "itemCount"⟩
      [[("b", JValue.num 7)]] [("b", JValue.num 7)]
      (List.mem_singleton_self _) (Or.inl rfl)).2.2.1 rfl

/-- C7: the emitted group keys are pairwise distinct; each group's member
list is exactly the in-order sublist of the input whose records carry that
key (so a kept record appears in exactly one group, in original relative
order); and the concatenation of all member lists in emission order is a
permutation of the input records not dropped by the missing-value
policy. -/
theorem C7_round_trip (cfg : Config) (items : List JObject) :
    ((executeCore cfg items).map Prod.fst).Nodup
    ∧ (∀ q ∈ executeCore cfg items,
        q.2 = items.filter (fun it => keyForItem cfg.disableNested
          (jsTrim cfg.fieldToGroupBy) cfg.handleMissingValues it = some q.1))
    ∧ List.Perm (((executeCore cfg items).map Prod.snd).flatten)
        (items.filter (fun it => (keyForItem cfg.disableNested
          (jsTrim cfg.fieldToGroupBy) cfg.handleMissingValues it).isSome)) :=
  ⟨executeCore_keys_nodup cfg items, fun _ hq => executeCore_snd hq,
    executeCore_flatten_perm cfg items⟩

/-- C8: key normalization is the total string conversion `jToString`; any
two records whose resolved (non-null) values stringify identically end up
in one shared group. -/
theorem C8_string_normalization (cfg : Config) (items : List JObject)
    (it1 it2 : JObject) (v1 v2 : JValue)
    (h1 : it1 ∈ items) (h2 : it2 ∈ items)
    (hr1 : resolveValue cfg.disableNested (jsTrim cfg.fieldToGroupBy) it1 = some v1)
    (hr2 : resolveValue cfg.disableNested (jsTrim cfg.fieldToGroupBy) it2 = some v2)
    (hn1 : v1 ≠ JValue.null) (hn2 : v2 ≠ JValue.null)
    (heq : jToString v1 = jToString v2) :
    ∃ q ∈ executeCore cfg items, q.1 = jToString v1 ∧ it1 ∈ q.2 ∧ it2 ∈ q.2 := by
  have hk1 := keyForItem_resolved cfg.disableNested (jsTrim cfg.fieldToGroupBy)
    cfg.handleMissingValues it1 v1 hr1 hn1
  have hk2 := keyForItem_resolved cfg.disableNested (jsTrim cfg.fieldToGroupBy)
    cfg.handleMissingValues it2 v2 hr2 hn2
  rw [← heq] at hk2
  obtain ⟨ms, hms, hin1⟩ := mem_own_group h1 hk1
  refine ⟨(jToString v1, ms), hms, rfl, hin1, ?_⟩
  have hsnd := executeCore_snd hms
  simp only at hsnd
  rw [hsnd]
  exact List.mem_filter.mpr ⟨h2, by simp [hk2]⟩

/-- C8 witness: the records `{a: 5}` (number) and `{a: "5"}` (string) land
in the same group. -/
theorem C8_string_normalization_witness :
    ∃ q ∈ executeCore ⟨"a", "items", true, false, .skip, .none, false, "itemCount"⟩
        ([[("a", JValue.num 5)], [("a", JValue.str "5")]] : List JObject),
      q.1 = jToString (JValue.num 5)
      ∧ ([("a", JValue.num 5)] : JObject) ∈ q.2
      ∧ ([("a", JValue.str "5")] : JObject) ∈ q.2 :=
  C8_string_normalization _ _ _ _ (JValue.num 5) (JValue.str "5")
    (List.Mem.head _) (List.Mem.tail _ (List.Mem.head _)) rfl rfl
    (by simp) (by simp) rfl

/-- C9 counterexample: with "disable nested lookup" set and the dotted
literal path `a.b`, the emitted key field is named `a.b` (the whole path),
not the last dot segment `b` the claim requires. -/
theorem C9_disable_dot_uses_whole_path :
    (execute ⟨"a.b", "items", true, true, .skip, .none, false, "itemCount"⟩
        [[("a.b", JValue.str "v")]]).toOption.map
      (fun r => r.output.map (fun oi =>
        (objLookup oi.json "b", objLookup oi.json "a.b")))
      = some [(none, some (.str "v"))] := rfl

/-- C9 amended: when "include group key" is enabled, every output record
carries the group's key string in a field named by `outputKeyName`: the
last dot segment of the path when nested lookup is enabled and the path is
dotted, the whole path otherwise — provided the configured member-array
field name (and, when enabled, the count field name) differs from that key
field name, since a later assignment to the same name overwrites it. -/
theorem C9_group_key_field (cfg : Config) (items : List JObject) (res : ExecResult)
    (out : OutputItem) (hok : execute cfg items = .ok res) (hout : out ∈ res.output)
    (hinc : cfg.includeGroupKey = true)
    (hname1 : cfg.outputFieldName ≠ outputKeyName cfg.disableNested (jsTrim cfg.fieldToGroupBy))
    (hname2 : cfg.includeItemCount = true →
      cfg.itemCountFieldName ≠ outputKeyName cfg.disableNested (jsTrim cfg.fieldToGroupBy)) :
    ∃ q ∈ executeCore cfg items,
      out = buildRecord cfg (jsTrim cfg.fieldToGroupBy) q
      ∧ objLookup out.json (outputKeyName cfg.disableNested (jsTrim cfg.fieldToGroupBy))
          = some (.str q.1) := by
  have hres : res.output
      = (executeCore cfg items).map (buildRecord cfg (jsTrim cfg.fieldToGroupBy)) := by
    cases items with
    | nil =>
        simp only [execute, List.isEmpty_nil, if_true, Except.ok.injEq] at hok
        rw [← hok, executeCore_nil]
        rfl
    | cons a l =>
        by_cases hf : jsTrim cfg.fieldToGroupBy = ""
        · simp [execute, hf] at hok
        · simp only [execute, List.isEmpty_cons, Bool.false_eq_true, if_false, hf,
            if_neg, Except.ok.injEq] at hok
          rw [← hok]
  rw [hres] at hout
  obtain ⟨q, hq, rfl⟩ := List.mem_map.mp hout
  refine ⟨q, hq, rfl, ?_⟩
  cases hci : cfg.includeItemCount with
  | false =>
      simp only [buildRecord, hinc, if_true, hci, Bool.false_eq_true, if_false]
      rw [objLookup_setField_ne _ _ _ _ hname1, objLookup_setField_self]
  | true =>
      simp only [buildRecord, hinc, if_true, hci]
      rw [objLookup_setField_ne _ _ _ _ (hname2 hci),
        objLookup_setField_ne _ _ _ _ hname1, objLookup_setField_self]

/-- C9 witness: grouping nested records by `user.country` emits the key
under the field name `country`. -/
theorem C9_group_key_field_witness :
    ∃ q ∈ executeCore cfgUser itemsUser,
      outUser = buildRecord cfgUser (jsTrim cfgUser.fieldToGroupBy) q
      ∧ objLookup outUser.json
          (outputKeyName cfgUser.disableNested (jsTrim cfgUser.fieldToGroupBy))
          = some (.str q.1) :=
  C9_group_key_field cfgUser itemsUser ⟨[outUser], false⟩ outUser rfl
    (List.mem_singleton_self _) rfl (by decide) (fun h => nomatch h)

/-- C10: every non-null, non-array mapping value normalizes to the one
string `"[object Object]"` — so any two records with mapping-valued
grouping fields share a single group — while an array normalizes to the
comma-join of its elements, so the two array-valued records `[1,2]` and
`[3]` land in distinct groups `"1,2"` and `"3"`. -/
theorem C10_object_and_array_keys :
    (∀ fields : List (String × JValue), jToString (.obj fields) = "[object Object]")
    ∧ (∀ (cfg : Config) (items : List JObject) (it1 it2 : JObject)
        (f1 f2 : List (String × JValue)),
        it1 ∈ items → it2 ∈ items →
        resolveValue cfg.disableNested (jsTrim cfg.fieldToGroupBy) it1 = some (.obj f1) →
        resolveValue cfg.disableNested (jsTrim cfg.fieldToGroupBy) it2 = some (.obj f2) →
        ∃ q ∈ executeCore cfg items,
          q.1 = "[object Object]" ∧ it1 ∈ q.2 ∧ it2 ∈ q.2)
    ∧ executeCore cfgC ([[("c", .arr [.num 1, .num 2])], [("c", .arr [.num 3])]])
        = [("1,2", [[("c", .arr [.num 1, .num 2])]]), ("3", [[("c", .arr [.num 3])]])] := by
  refine ⟨fun fields => rfl, ?_, rfl⟩
  intro cfg items it1 it2 f1 f2 h1 h2 hr1 hr2
  have hk1 := keyForItem_resolved cfg.disableNested (jsTrim cfg.fieldToGroupBy)
    cfg.handleMissingValues it1 (.obj f1) hr1 (by simp)
  have hk2 := keyForItem_resolved cfg.disableNested (jsTrim cfg.fieldToGroupBy)
    cfg.handleMissingValues it2 (.obj f2) hr2 (by simp)
  obtain ⟨ms, hms, hin1⟩ := mem_own_group h1 hk1
  refine ⟨("[object Object]", ms), ?_, rfl, hin1, ?_⟩
  · exact hms
  · have hsnd := executeCore_snd hms
    simp only at hsnd
    rw [hsnd]
    exact List.mem_filter.mpr ⟨h2, by simp [hk2, jToString]⟩

/-- C10 witness: two records whose grouping values are different mappings
share the `"[object Object]"` group. -/
theorem C10_object_and_array_keys_witness :
    ∃ q ∈ executeCore cfgC
        ([[("c", JValue.obj [("x", JValue.num 1)])],
          [("c", JValue.obj [("y", JValue.num 2)])]] : List JObject),
      q.1 = "[object Object]"
      ∧ ([("c", JValue.obj [("x", JValue.num 1)])] : JObject) ∈ q.2
      ∧ ([("c", JValue.obj [("y", JValue.num 2)])] : JObject) ∈ q.2 :=
  C10_object_and_array_keys.2.1 cfgC _ _ _ _ _ (List.Mem.head _)
    (List.Mem.tail _ (List.Mem.head _)) rfl rfl

end AggregateByField
